import Mathlib

/-! Verification of the `rox` scanner front-end

Shallow embedding of the lexical analyser of the `rox` repository
(`src/scanner.rs`, `src/literal.rs`, `src/token.rs`) together with proofs
about the claims of its specification.

Modelling conventions:
* Source text is a `List Char` (Rust iterates `Chars`, i.e. Unicode scalar
  values; byte-level issues never arise because every boundary character the
  scanner inspects is ASCII).
* Rust `u64` position counters are modelled by `Nat` (no claim depends on
  wrap-around at `2 ^ 64`).
* The number payload of a literal carries the accepted text rather than the
  decoded IEEE-754 double: no claim depends on the decoded value, only on
  which texts the number parser accepts.
* The cursor carries ghost counters (`consumed`, `consumedNl`, `forwards`,
  `downs`) that record how many characters were taken from the character
  source and how many position updates were performed.  They never influence
  control flow; they only let us state the position-update discipline.
-/

namespace Rox

/-- The characters of a string literal, used to write concrete sources. -/
def chars (s : String) : List Char := s.data

/-- Model of `is_digit` from `scanner.rs` (`ch.is_digit(10)`). -/
def is_digit (c : Char) : Bool := c.isDigit

/-- Model of `is_alpha` from `scanner.rs` (`ch.is_alphabetic() || ch == '_'`).
Rust's `char::is_alphabetic` covers all Unicode letters; we model its ASCII
fragment, which is the only part any claim exercises. -/
def is_alpha (c : Char) : Bool := c.isAlpha || c = '_'

/-- Model of `is_alphanumeric` from `scanner.rs`. -/
def is_alphanumeric (c : Char) : Bool := is_alpha c || is_digit c

/-- Model of `is_dot` from `scanner.rs`. -/
def is_dot (c : Char) : Bool := c = '.'

/-- ASCII fragment of Rust `char::is_whitespace`, used by `str::trim`.
(The scanner only ever trims lexemes whose first and last characters are
non-whitespace ASCII, so the non-ASCII part of the Unicode property is
irrelevant here.) -/
def isWs (c : Char) : Bool :=
  c = ' ' || c = '\t' || c = '\n' || c = '\r' || c = '\x0b' || c = '\x0c'

/-- Model of Rust `str::trim`: drop leading and trailing whitespace. -/
def trim (s : List Char) : List Char :=
  ((s.dropWhile isWs).reverse.dropWhile isWs).reverse

/-! The literal parser (`literal.rs`) -/

/-- Model of `literal::Literal`.  The `Number` payload carries the accepted
text; the IEEE-754 decoding performed by Rust is not modelled because no
claim depends on the decoded value. -/
inductive Literal where
  | String : List Char → Literal
  | Number : List Char → Literal
  | Boolean : Bool → Literal
deriving DecidableEq

/-- Model of `literal::ParseLiteralErr`. -/
structure ParseLiteralErr where
  literal : List Char
  message : List Char
deriving DecidableEq

/-- Model of `parse_bool` (`bool::from_str` accepts exactly `true`/`false`). -/
def parse_bool (s : List Char) : Except ParseLiteralErr Literal :=
  if s = chars "true" then .ok (.Boolean true)
  else if s = chars "false" then .ok (.Boolean false)
  else .error ⟨s, chars "provided string was not `true` or `false`"⟩

/-- ASCII lower-casing, as used by Rust's case-insensitive comparison of the
special float spellings. -/
def toLowerAscii (c : Char) : Char := c.toLower

/-- Is the character an optional-sign character of the float grammar? -/
def isSign (c : Char) : Bool := c = '+' || c = '-'

/-- Strip one optional leading sign, as in Rust's float grammar. -/
def stripSign (s : List Char) : List Char :=
  match s with
  | c :: rest => if isSign c then rest else s
  | [] => []

/-- Acceptance of the optional exponent part of Rust's float grammar:
empty, or `e`/`E` followed by an optional sign and at least one digit. -/
def expOk (s : List Char) : Bool :=
  match s with
  | [] => true
  | c :: rest =>
    (c = 'e' || c = 'E') &&
      (!(stripSign rest).isEmpty && (stripSign rest).all is_digit)

/-- The rest of the mantissa when no integer digits were found: requires a
dot followed by at least one digit, then an optional exponent. -/
def numberFracOnly : List Char → Bool
  | c :: r2 =>
    is_dot c && (!(r2.takeWhile is_digit).isEmpty &&
      expOk (r2.dropWhile is_digit))
  | [] => false

/-- The rest of the mantissa after a nonempty run of integer digits: an
optional dot with optional fraction digits, then an optional exponent. -/
def numberAfterInt : List Char → Bool
  | c :: r2 => if is_dot c then expOk (r2.dropWhile is_digit) else expOk (c :: r2)
  | [] => expOk []

/-- Acceptance of the decimal-mantissa part of Rust's float grammar:
`Count '.'? Count? Exp?` or `'.' Count Exp?`. -/
def numberOk (s : List Char) : Bool :=
  if (s.takeWhile is_digit).isEmpty then numberFracOnly (s.dropWhile is_digit)
  else numberAfterInt (s.dropWhile is_digit)

/-- Acceptance of the case-insensitive special spellings `inf`, `infinity`
and `nan` of Rust's float grammar. -/
def specialOk (s : List Char) : Bool :=
  let l := s.map toLowerAscii
  l == chars "inf" || l == chars "infinity" || l == chars "nan"

/-- Model of the set of texts accepted by Rust `f64::from_str`, following the
grammar documented for it:
`Float ::= Sign? ( 'inf' | 'infinity' | 'nan' | Number )`,
`Number ::= Count '.'? Count? Exp? | '.' Count Exp?`,
`Exp ::= ('e'|'E') Sign? Count`, `Count ::= Digit+`,
with the special words compared case-insensitively. -/
def rustF64Accepts (s : List Char) : Bool :=
  let t := stripSign s
  specialOk t || numberOk t

/-- Model of `parse_number` from `literal.rs` (`f64::from_str` wrapped in
`Literal::Number`).  Succeeds exactly on the texts `f64::from_str` accepts;
the payload records the accepted text. -/
def parse_number (s : List Char) : Except ParseLiteralErr Literal :=
  if rustF64Accepts s then .ok (.Number s)
  else .error ⟨s, chars "invalid float literal"⟩

/-- Model of Rust slice indexing `s.get(i..j)` on the character list:
defined exactly when `i ≤ j ≤ s.len()`. -/
def strGetRange (s : List Char) (i j : Nat) : Option (List Char) :=
  if i ≤ j ∧ j ≤ s.length then some ((s.drop i).take (j - i)) else none

/-- Model of `parse_string` from `literal.rs`. -/
def parse_string (s : List Char) : Except ParseLiteralErr Literal :=
  if !(s.head? == some '"' && s.getLast? == some '"') then
    .error ⟨s, chars "Incorrectly formatted string!"⟩
  else
    match strGetRange s 1 (s.length - 1) with
    | some inner => .ok (.String inner)
    | none => .error ⟨s, chars "Empty string!"⟩

/-- Model of `Literal::from_str`: try boolean, then number, then string. -/
def Literal.from_str (s : List Char) : Except ParseLiteralErr Literal :=
  match parse_bool s with
  | .ok l => .ok l
  | .error _ =>
    match parse_number s with
    | .ok l => .ok l
    | .error _ => parse_string s

/-! Token kinds, tokens, scan errors -/

/-- Modelled from the spec: the token-kind enumeration `token_type::Type`.
Its source file is not under `src/`; the 38 variant names are fixed by §3 of
the spec and by their uses throughout `scanner.rs`. -/
inductive TT where
  | LeftParen | RightParen | LeftBrace | RightBrace | Comma | Dot | Minus
  | Plus | Semicolon | Slash | Star
  | Bang | BangEqual | Equal | EqualEqual | Greater | GreaterEqual
  | Less | LessEqual
  | Identifier | String | Number
  | And | Class | Else | False | For | Fun | If | Nil | Or | Print
  | Return | Super | This | True | Var | While
deriving DecidableEq

/-- Model of `token::Token`. -/
structure Token where
  token_type : TT
  lexeme : List Char
  literal : Option Literal
  position : Nat × Nat
deriving DecidableEq

/-- Model of `scanner::ScanError` (a position plus a message string). -/
structure ScanError where
  position : Nat × Nat
  message : List Char
deriving DecidableEq

/-- Model of `reserved_words()` from `scanner.rs`: the static keyword table,
as an association list (the `HashMap` is only ever used via exact-match
`get`). -/
def reserved_words : List (List Char × TT) :=
  [(chars "and", TT.And), (chars "class", TT.Class), (chars "else", TT.Else),
   (chars "false", TT.False), (chars "for", TT.For), (chars "fun", TT.Fun),
   (chars "if", TT.If), (chars "nil", TT.Nil), (chars "or", TT.Or),
   (chars "print", TT.Print), (chars "return", TT.Return),
   (chars "super", TT.Super), (chars "this", TT.This), (chars "true", TT.True),
   (chars "var", TT.Var), (chars "while", TT.While)]

/-- Exact-match lookup in the keyword table (`self.reserved_words.get(..)`). -/
def reservedLookup (s : List Char) : Option TT :=
  (reserved_words.find? (fun p => p.1 == s)).map (fun p => p.2)

/-! The scanner state -/

/-- The mutable scanner state apart from the character source: position,
current-lexeme buffer, and the ghost update counters. -/
structure Cursor where
  line : Nat
  col : Nat
  current : List Char
  consumed : Nat
  consumedNl : Nat
  forwards : Nat
  downs : Nat
deriving DecidableEq

/-- The initial scanner state (`Scanner::new`). -/
def cursor0 : Cursor := ⟨0, 0, [], 0, 0, 0, 0⟩

/-- Model of `Scanner::forward`. -/
def Cursor.forward (cu : Cursor) : Cursor :=
  { cu with col := cu.col + 1, forwards := cu.forwards + 1 }

/-- Model of `Scanner::down`. -/
def Cursor.down (cu : Cursor) : Cursor :=
  { cu with line := cu.line + 1, col := 0, downs := cu.downs + 1 }

/-- Ghost bookkeeping for one character taken from the character source
(`self.source.next()` returning `Some`).  No observable field changes. -/
def Cursor.bump (cu : Cursor) (c : Char) : Cursor :=
  { cu with consumed := cu.consumed + 1,
            consumedNl := cu.consumedNl + (if c = '\n' then 1 else 0) }

/-- Model of `Scanner::consume`. -/
def Cursor.consume (cu : Cursor) (ch : Char) : Cursor :=
  let cu2 := if ch = '\n' then cu.down else cu.forward
  { cu2 with current := cu2.current ++ [ch] }

/-- The `(line, column)` pair of the state. -/
def Cursor.pos (cu : Cursor) : Nat × Nat := (cu.line, cu.col)

/-- The buffer reset performed by `Scanner::emit`. -/
def Cursor.clear (cu : Cursor) : Cursor := { cu with current := [] }

/-- The literal attachment of `Scanner::token`: run the literal parser on the
lexeme and keep the value only on success. -/
def litOpt (s : List Char) : Option Literal :=
  match Literal.from_str s with
  | .ok l => some l
  | .error _ => none

/-- Model of `Scanner::token`: snapshot the trimmed buffer, attach a literal
when the literal parser succeeds, and stamp the current position. -/
def Cursor.token (cu : Cursor) (tt : TT) : Token :=
  ⟨tt, trim cu.current, litOpt (trim cu.current), cu.pos⟩

/-- Model of `Scanner::emit`. -/
def Cursor.emit (cu : Cursor) (tt : TT) : Token × Cursor :=
  (cu.token tt, cu.clear)

/-- Model of `Scanner::digest`. -/
def Cursor.digest (cu : Cursor) (mc : Char) (tt : TT) : Token × Cursor :=
  (cu.consume mc).emit tt

/-- Model of `Scanner::unexpected_error`: the position together with the
message `Unexpected character: {current:?}`. -/
def rustEscapeChar (c : Char) : List Char :=
  if c = '"' then ['\\', '"']
  else if c = '\\' then ['\\', '\\']
  else if c = '\n' then ['\\', 'n']
  else if c = '\t' then ['\\', 't']
  else if c = '\r' then ['\\', 'r']
  else [c]

/-- Model of the `{:?}` (Debug) rendering of a Rust string: surrounding
quotes plus escapes.  Only the escapes that can arise in this development
are modelled. -/
def rustDebugStr (s : List Char) : List Char :=
  '"' :: (s.map rustEscapeChar).flatten ++ ['"']

/-- Model of `Scanner::unexpected_error`. -/
def unexpected_error (cu : Cursor) : ScanError :=
  ⟨cu.pos, chars "Unexpected character: " ++ rustDebugStr cu.current⟩

/-! Source-consuming helpers -/

/-- Model of `Scanner::taste`: peek, and consume the next character exactly
when it equals `mc`.  Returns the tasted character, the remaining source and
the updated state.  Note that `taste` performs no position update. -/
def taste (src : List Char) (cu : Cursor) (mc : Char) :
    Option Char × List Char × Cursor :=
  match src with
  | [] => (none, [], cu)
  | c :: rest => if c = mc then (some c, rest, cu.bump c) else (none, c :: rest, cu)

/-- Model of `Scanner::skip_til`: consume characters, moving forward for each
one, until the stop character (consumed, no position update) or end of
input. -/
def skip_til (stop : Char) : List Char → Cursor → List Char × Cursor
  | [], cu => ([], cu)
  | c :: rest, cu =>
    if c = stop then (rest, cu.bump c)
    else skip_til stop rest ((cu.bump c).forward)

/-- Model of `Scanner::slurp_til`: consume (via `consume`) characters up to
but not including the first one satisfying `p`. -/
def slurp_til (p : Char → Bool) : List Char → Cursor → List Char × Cursor
  | [], cu => ([], cu)
  | c :: rest, cu =>
    if p c then (c :: rest, cu)
    else slurp_til p rest ((cu.bump c).consume c)

/-- Model of `Scanner::slurp_while`: consume (via `consume`) characters while
`p` holds. -/
def slurp_while (p : Char → Bool) : List Char → Cursor → List Char × Cursor
  | [], cu => ([], cu)
  | c :: rest, cu =>
    if p c then slurp_while p rest ((cu.bump c).consume c)
    else (c :: rest, cu)

/-- Model of `Scanner::identifier`. -/
def identifier (src : List Char) (cu : Cursor) (ch : Char) :
    Token × List Char × Cursor :=
  let cu1 := cu.consume ch
  let r := slurp_while is_alphanumeric src cu1
  let tt := (reservedLookup r.2.current).getD TT.Identifier
  let e := r.2.emit tt
  (e.1, r.1, e.2)

/-- Model of `Scanner::number`.  The `none` result models the `unwrap`
panic on `self.source.next()` after the two-character lookahead (it is the
only panic site of the scanner; totality is proved below). -/
def number (src : List Char) (cu : Cursor) (ch : Char) :
    Option (Token × List Char × Cursor) :=
  let cu1 := cu.consume ch
  let r := slurp_while is_digit src cu1
  match r.1.take 2 with
  | [c1, c2] =>
    if is_dot c1 && is_digit c2 then
      match r.1 with
      | [] => none
      | dot :: rest =>
        let cu3 := (r.2.bump dot).consume dot
        let r4 := slurp_while is_digit rest cu3
        let e := r4.2.emit TT.Number
        some (e.1, r4.1, e.2)
    else
      let e := r.2.emit TT.Number
      some (e.1, r.1, e.2)
  | _ =>
    let e := r.2.emit TT.Number
    some (e.1, r.1, e.2)

/-! The scanner engine -/

/-- One outcome of `Scanner::next`: a token, an error, end of stream, or
`stuck` (a Rust panic, or fuel exhaustion of the embedding; both are proved
unreachable where needed). -/
inductive NextRes where
  | tok : Token → List Char → Cursor → NextRes
  | err : ScanError → List Char → Cursor → NextRes
  | eos : Cursor → NextRes
  | stuck : NextRes
deriving DecidableEq

/-- Package an emitted token together with the remaining source. -/
def tokOf (e : Token × Cursor) (src : List Char) : NextRes :=
  .tok e.1 src e.2

/-- Package the result triple of `identifier`/`number`. -/
def tokOf3 (x : Token × List Char × Cursor) : NextRes :=
  .tok x.1 x.2.1 x.2.2

/-- The dispatch body of `Scanner::next`, parameterised by the recursive
call used by the whitespace/comment skip paths.  The arms appear in the
order of the Rust `match`. -/
def nextCore (recur : List Char → Cursor → NextRes) :
    List Char → Cursor → NextRes := fun src cu =>
  match src with
  | [] => .eos cu
  | ch :: rest =>
    let cu0 := cu.bump ch
    if ch = '(' then tokOf (cu0.digest ch TT.LeftParen) rest
    else if ch = ')' then tokOf (cu0.digest ch TT.RightParen) rest
    else if ch = '{' then tokOf (cu0.digest ch TT.LeftBrace) rest
    else if ch = '}' then tokOf (cu0.digest ch TT.RightBrace) rest
    else if ch = ',' then tokOf (cu0.digest ch TT.Comma) rest
    else if ch = '.' then tokOf (cu0.digest ch TT.Dot) rest
    else if ch = '-' then tokOf (cu0.digest ch TT.Minus) rest
    else if ch = '+' then tokOf (cu0.digest ch TT.Plus) rest
    else if ch = ';' then tokOf (cu0.digest ch TT.Semicolon) rest
    else if ch = '*' then tokOf (cu0.digest ch TT.Star) rest
    else if ch = '!' then
      let tr := taste rest (cu0.consume ch) '='
      match tr.1 with
      | some nc => tokOf (tr.2.2.digest nc TT.BangEqual) tr.2.1
      | none => tokOf (tr.2.2.emit TT.Bang) tr.2.1
    else if ch = '=' then
      let tr := taste rest (cu0.consume ch) '='
      match tr.1 with
      | some nc => tokOf (tr.2.2.digest nc TT.EqualEqual) tr.2.1
      | none => tokOf (tr.2.2.emit TT.Equal) tr.2.1
    else if ch = '<' then
      let tr := taste rest (cu0.consume ch) '='
      match tr.1 with
      | some nc => tokOf (tr.2.2.digest nc TT.LessEqual) tr.2.1
      | none => tokOf (tr.2.2.emit TT.Less) tr.2.1
    else if ch = '>' then
      let tr := taste rest (cu0.consume ch) '='
      match tr.1 with
      | some nc => tokOf (tr.2.2.digest nc TT.GreaterEqual) tr.2.1
      | none => tokOf (tr.2.2.emit TT.Greater) tr.2.1
    else if ch = '/' then
      let tr := taste rest cu0 '/'
      match tr.1 with
      | some _ =>
        let sk := skip_til '\n' tr.2.1 tr.2.2
        recur sk.1 sk.2.down
      | none => tokOf (tr.2.2.digest ch TT.Slash) tr.2.1
    else if ch = '"' then
      let cu1 := cu0.consume ch
      let sl := slurp_til (fun c => c == '"') rest cu1
      match sl.1 with
      | [] => .err (unexpected_error sl.2) [] sl.2
      | c :: rest3 => tokOf ((sl.2.bump c).digest c TT.String) rest3
    else if ch = ' ' then recur rest cu0.forward
    else if ch = '\r' then recur rest cu0.forward
    else if ch = '\t' then recur rest cu0.forward
    else if ch = '\n' then recur rest cu0.down
    else if is_digit ch then
      match number rest cu0 ch with
      | some x => tokOf3 x
      | none => .stuck
    else if is_alpha ch then tokOf3 (identifier rest cu0 ch)
    else .err (unexpected_error cu0) rest cu0

/-- Model of `Scanner::next`, with fuel making the whitespace/comment
recursion structural.  Every recursive call consumes at least one source
character first, so any fuel exceeding the source length is enough. -/
def next : Nat → List Char → Cursor → NextRes
  | 0, _, _ => .stuck
  | Nat.succ fuel, src, cu => nextCore (next fuel) src cu

/-- The collection loop of `scan` (`collect::<Result<Vec<_>, _>>()`): pull
tokens until end of stream, stopping at the first error.  Also returns the
final scanner state (for the ghost counters). -/
def scanLoop : Nat → List Char → Cursor →
    Option (Except ScanError (List Token) × Cursor)
  | 0, _, _ => none
  | Nat.succ fuel, src, cu =>
    match next (src.length + 1) src cu with
    | .eos cu' => some (.ok [], cu')
    | .tok t src' cu' =>
      match scanLoop fuel src' cu' with
      | some (.ok ts, cuF) => some (.ok (t :: ts), cuF)
      | some (.error e, cuF) => some (.error e, cuF)
      | none => none
    | .err e _ cu' => some (.error e, cu')
    | .stuck => none

/-- Model of `scanner::scan`, also exposing the final scanner state. -/
def scanFull (src : List Char) :
    Option (Except ScanError (List Token) × Cursor) :=
  scanLoop (src.length + 1) src cursor0

/-- Model of `scanner::scan`: the token list or the first error.  The outer
`Option` is `none` only on a Rust panic or fuel exhaustion, both of which
are unreachable. -/
def scan (src : List Char) : Option (Except ScanError (List Token)) :=
  (scanFull src).map Prod.fst

/-! Specification-side helpers used only in theorem statements -/

/-- The two-character lookahead condition of the number recognizer: the
stream continues with `.` followed by a digit. -/
def dotDigit : List Char → Bool
  | c1 :: c2 :: _ => is_dot c1 && is_digit c2
  | _ => false

/-- Specification of the characters the number recognizer appends to the
buffer after its first digit: the consecutive digits, then — exactly when
the two-character lookahead sees `.` followed by a digit — the dot and the
following digit run. -/
def numberTakeSpec (src : List Char) : List Char :=
  let r := src.dropWhile is_digit
  src.takeWhile is_digit ++
    (if dotDigit r then '.' :: r.tail.takeWhile is_digit else [])

/-- Specification of the source left unconsumed by the number recognizer. -/
def numberRestSpec (src : List Char) : List Char :=
  let r := src.dropWhile is_digit
  if dotDigit r then r.tail.dropWhile is_digit else r

/-- Consuming a list of characters in sequence (`bump` then `consume` for
each), the common effect of the slurp helpers. -/
def consumeAll (cs : List Char) (cu : Cursor) : Cursor :=
  cs.foldl (fun c ch => (c.bump ch).consume ch) cu

/-- Lexicographic order on `(line, column)` positions. -/
def posLe (a b : Nat × Nat) : Prop :=
  a.1 < b.1 ∨ (a.1 = b.1 ∧ a.2 ≤ b.2)

instance (a b : Nat × Nat) : Decidable (posLe a b) := by
  unfold posLe; infer_instance

/-- Update-versus-consumption accounting between two states: every newly
consumed newline was matched by exactly one `down`, and every newly consumed
character was matched by exactly one update. -/
def balanceStep (cu cu' : Cursor) : Prop :=
  cu'.downs + cu.consumedNl = cu.downs + cu'.consumedNl ∧
    cu'.forwards + cu'.downs + cu.consumed =
      cu.forwards + cu.downs + cu'.consumed

/-- A source with no `//` comment opener. -/
def commentFree : List Char → Bool
  | c1 :: c2 :: rest => !(c1 = '/' && c2 = '/') && commentFree (c2 :: rest)
  | _ => true

/-- Keyword discipline of a single token: if its lexeme is a reserved-word
spelling then its kind is the mapped keyword kind. -/
def keywordProp (t : Token) : Prop :=
  ∀ k, reservedLookup t.lexeme = some k → t.token_type = k

/-- Literal discipline of a single token: kinds other than `String`,
`Number`, `True`, `False` and `Identifier` never carry a literal, and an
`Identifier` carries a number literal made of its own lexeme exactly when
the float parser accepts its spelling, and no literal otherwise. -/
def literalProp (t : Token) : Prop :=
  (t.token_type ≠ TT.String → t.token_type ≠ TT.Number →
    t.token_type ≠ TT.True → t.token_type ≠ TT.False →
    t.token_type ≠ TT.Identifier → t.literal = none) ∧
  (t.token_type = TT.Identifier →
    t.literal =
      if rustF64Accepts t.lexeme then some (Literal.Number t.lexeme)
      else none)

/-- The run invariant established for each outcome of `next`. -/
def NextInvProp (src : List Char) (cu : Cursor) : NextRes → Prop
  | .tok t src' cu' =>
      cu'.current = [] ∧ t.position = cu'.pos ∧ posLe cu.pos cu'.pos ∧
      keywordProp t ∧ literalProp t ∧
      (commentFree src = true → commentFree src' = true ∧ balanceStep cu cu')
  | .err _ _ _ => True
  | .eos cu' =>
      cu'.current = cu.current ∧ posLe cu.pos cu'.pos ∧
      (commentFree src = true → balanceStep cu cu')
  | .stuck => True

/-! Declarative form of Rust's float grammar (for the amended claim
about `parse_number`) -/

/-- A nonempty run of decimal digits (`Count`). -/
def Digits1 (l : List Char) : Prop := l ≠ [] ∧ ∀ c ∈ l, is_digit c = true

/-- A possibly empty run of decimal digits. -/
def DigitsAll (l : List Char) : Prop := ∀ c ∈ l, is_digit c = true

/-- An optional sign. -/
def SignOpt (l : List Char) : Prop := l = [] ∨ l = ['+'] ∨ l = ['-']

/-- Declarative optional exponent: empty, or `e`/`E`, an optional sign and a
nonempty digit run. -/
def ExpOpt (e : List Char) : Prop :=
  e = [] ∨ ∃ sgn ds, (e = 'e' :: (sgn ++ ds) ∨ e = 'E' :: (sgn ++ ds)) ∧
    SignOpt sgn ∧ Digits1 ds

/-- Declarative decimal mantissa: digits, digits-dot-digits, or
dot-digits. -/
def MantissaSpec (m : List Char) : Prop :=
  (Digits1 m) ∨
  (∃ ds fs, m = ds ++ '.' :: fs ∧ Digits1 ds ∧ DigitsAll fs) ∨
  (∃ fs, m = '.' :: fs ∧ Digits1 fs)

/-- Declarative decimal number: mantissa followed by an optional exponent. -/
def NumberSpec (t : List Char) : Prop :=
  ∃ m e, t = m ++ e ∧ MantissaSpec m ∧ ExpOpt e

/-- Declarative special spellings, case-insensitive. -/
def SpecialSpec (t : List Char) : Prop :=
  t.map toLowerAscii = chars "inf" ∨ t.map toLowerAscii = chars "infinity" ∨
    t.map toLowerAscii = chars "nan"

/-- Declarative form of the full grammar accepted by Rust `f64::from_str`:
an optional sign followed by a special spelling or a decimal number. -/
def FloatSpec (s : List Char) : Prop :=
  ∃ sgn t, s = sgn ++ t ∧ SignOpt sgn ∧ (SpecialSpec t ∨ NumberSpec t)

/-! Basic state lemmas -/

theorem consume_current (cu : Cursor) (ch : Char) :
    (cu.consume ch).current = cu.current ++ [ch] := by
  unfold Cursor.consume; split <;> rfl

theorem consume_consumed (cu : Cursor) (ch : Char) :
    (cu.consume ch).consumed = cu.consumed := by
  unfold Cursor.consume; split <;> rfl

theorem consume_consumedNl (cu : Cursor) (ch : Char) :
    (cu.consume ch).consumedNl = cu.consumedNl := by
  unfold Cursor.consume; split <;> rfl

theorem consume_forwards (cu : Cursor) (ch : Char) :
    (cu.consume ch).forwards = cu.forwards + (if ch = '\n' then 0 else 1) := by
  unfold Cursor.consume; split <;> simp [Cursor.down, Cursor.forward, *]

theorem consume_downs (cu : Cursor) (ch : Char) :
    (cu.consume ch).downs = cu.downs + (if ch = '\n' then 1 else 0) := by
  unfold Cursor.consume; split <;> simp [Cursor.down, Cursor.forward, *]

theorem bump_current (cu : Cursor) (c : Char) :
    (cu.bump c).current = cu.current := rfl

theorem bump_pos (cu : Cursor) (c : Char) : (cu.bump c).pos = cu.pos := rfl

theorem clear_pos (cu : Cursor) : cu.clear.pos = cu.pos := rfl

theorem clear_current (cu : Cursor) : cu.clear.current = [] := rfl

theorem token_position (cu : Cursor) (tt : TT) :
    (cu.token tt).position = cu.pos := rfl

theorem token_lexeme (cu : Cursor) (tt : TT) :
    (cu.token tt).lexeme = trim cu.current := rfl

theorem token_type_eq (cu : Cursor) (tt : TT) :
    (cu.token tt).token_type = tt := rfl

theorem token_literal (cu : Cursor) (tt : TT) :
    (cu.token tt).literal = litOpt (trim cu.current) := rfl

/-! Position order -/

theorem posLe_refl (a : Nat × Nat) : posLe a a := Or.inr ⟨rfl, le_refl _⟩

theorem posLe_trans {a b c : Nat × Nat} (h1 : posLe a b) (h2 : posLe b c) :
    posLe a c := by
  unfold posLe at *
  rcases h1 with h1 | ⟨h1, h1'⟩ <;> rcases h2 with h2 | ⟨h2, h2'⟩
  · exact Or.inl (h1.trans h2)
  · exact Or.inl (h2 ▸ h1)
  · exact Or.inl (h1 ▸ h2)
  · exact Or.inr ⟨h1.trans h2, h1'.trans h2'⟩

theorem posLe_forward (cu : Cursor) : posLe cu.pos cu.forward.pos := by
  unfold posLe Cursor.pos Cursor.forward; right; simp

theorem posLe_down (cu : Cursor) : posLe cu.pos cu.down.pos := by
  unfold posLe Cursor.pos Cursor.down; left; simp

theorem posLe_consume (cu : Cursor) (ch : Char) :
    posLe cu.pos (cu.consume ch).pos := by
  unfold Cursor.consume
  split
  · exact posLe_down cu
  · exact posLe_forward cu

theorem consume_pos_eq (cu : Cursor) (ch : Char) :
    (cu.consume ch).pos = (if ch = '\n' then cu.down else cu.forward).pos := by
  unfold Cursor.consume; split <;> simp_all [Cursor.pos]

/-! Balance accounting -/

theorem balanceStep_refl (cu : Cursor) : balanceStep cu cu := ⟨rfl, rfl⟩

theorem balanceStep_trans {a b c : Cursor} (h1 : balanceStep a b)
    (h2 : balanceStep b c) : balanceStep a c := by
  unfold balanceStep at *; omega

theorem balanceStep_bump_consume (cu : Cursor) (c : Char) :
    balanceStep cu ((cu.bump c).consume c) := by
  unfold balanceStep
  rw [consume_downs, consume_consumedNl, consume_forwards, consume_consumed]
  unfold Cursor.bump
  by_cases h : c = '\n' <;> simp [h] <;> omega

theorem balanceStep_bump_forward (cu : Cursor) (c : Char) (h : ¬ c = '\n') :
    balanceStep cu ((cu.bump c).forward) := by
  unfold balanceStep Cursor.bump Cursor.forward
  simp [h]; omega

theorem balanceStep_bump_down (cu : Cursor) :
    balanceStep cu ((cu.bump '\n').down) := by
  unfold balanceStep Cursor.bump Cursor.down
  simp; omega

theorem balanceStep_clear (cu cu' : Cursor) (h : balanceStep cu cu') :
    balanceStep cu cu'.clear := h

/-! `consumeAll` -/

theorem consumeAll_nil (cu : Cursor) : consumeAll [] cu = cu := rfl

theorem consumeAll_cons (c : Char) (cs : List Char) (cu : Cursor) :
    consumeAll (c :: cs) cu = consumeAll cs ((cu.bump c).consume c) := rfl

theorem consumeAll_append (a b : List Char) (cu : Cursor) :
    consumeAll (a ++ b) cu = consumeAll b (consumeAll a cu) := by
  unfold consumeAll; rw [List.foldl_append]

theorem consumeAll_current (cs : List Char) (cu : Cursor) :
    (consumeAll cs cu).current = cu.current ++ cs := by
  induction cs generalizing cu with
  | nil => simp [consumeAll_nil]
  | cons c cs ih =>
    rw [consumeAll_cons, ih, consume_current, bump_current]
    simp

theorem consumeAll_pos (cs : List Char) (cu : Cursor) :
    posLe cu.pos (consumeAll cs cu).pos := by
  induction cs generalizing cu with
  | nil => exact posLe_refl _
  | cons c cs ih =>
    rw [consumeAll_cons]
    exact posLe_trans (posLe_consume (cu.bump c) c) (ih _)

theorem consumeAll_balance (cs : List Char) (cu : Cursor) :
    balanceStep cu (consumeAll cs cu) := by
  induction cs generalizing cu with
  | nil => exact balanceStep_refl _
  | cons c cs ih =>
    rw [consumeAll_cons]
    exact balanceStep_trans (balanceStep_bump_consume cu c) (ih _)

/-! Characterizations of the consuming helpers -/

theorem slurp_while_eq (p : Char → Bool) (src : List Char) (cu : Cursor) :
    slurp_while p src cu =
      (src.dropWhile p, consumeAll (src.takeWhile p) cu) := by
  induction src generalizing cu with
  | nil => simp [slurp_while, consumeAll_nil]
  | cons c rest ih =>
    by_cases h : p c
    · simp [slurp_while, h, List.dropWhile_cons, List.takeWhile_cons, ih,
        consumeAll_cons]
    · simp [slurp_while, h, List.dropWhile_cons, List.takeWhile_cons,
        consumeAll_nil]

theorem slurp_til_eq (p : Char → Bool) (src : List Char) (cu : Cursor) :
    slurp_til p src cu =
      (src.dropWhile (fun c => !p c),
       consumeAll (src.takeWhile (fun c => !p c)) cu) := by
  induction src generalizing cu with
  | nil => simp [slurp_til, consumeAll_nil]
  | cons c rest ih =>
    by_cases h : p c
    · simp [slurp_til, h, List.dropWhile_cons, List.takeWhile_cons,
        consumeAll_nil]
    · simp [slurp_til, h, List.dropWhile_cons, List.takeWhile_cons, ih,
        consumeAll_cons]

theorem skip_til_current (stop : Char) (src : List Char) (cu : Cursor) :
    (skip_til stop src cu).2.current = cu.current := by
  induction src generalizing cu with
  | nil => rfl
  | cons c rest ih =>
    unfold skip_til
    split
    · rfl
    · exact ih _

theorem skip_til_pos (stop : Char) (src : List Char) (cu : Cursor) :
    posLe cu.pos (skip_til stop src cu).2.pos := by
  induction src generalizing cu with
  | nil => exact posLe_refl _
  | cons c rest ih =>
    unfold skip_til
    split
    · exact posLe_refl _
    · exact posLe_trans (posLe_forward (cu.bump c)) (ih _)

/-! `taste` -/

theorem taste_nil (cu : Cursor) (mc : Char) : taste [] cu mc = (none, [], cu) := rfl

theorem taste_cons_eq (c : Char) (rest : List Char) (cu : Cursor) (mc : Char)
    (h : c = mc) : taste (c :: rest) cu mc = (some c, rest, cu.bump c) := by
  simp [taste, h]

theorem taste_cons_ne (c : Char) (rest : List Char) (cu : Cursor) (mc : Char)
    (h : ¬ c = mc) : taste (c :: rest) cu mc = (none, c :: rest, cu) := by
  simp [taste, h]

/-! `commentFree` -/

theorem commentFree_tail {c : Char} {l : List Char}
    (h : commentFree (c :: l) = true) : commentFree l = true := by
  cases l with
  | nil => rfl
  | cons c2 rest =>
    unfold commentFree at h
    exact (Bool.and_eq_true_iff.mp h).2

theorem commentFree_dropWhile (p : Char → Bool) {l : List Char}
    (h : commentFree l = true) : commentFree (l.dropWhile p) = true := by
  induction l with
  | nil => exact h
  | cons c rest ih =>
    rw [List.dropWhile_cons]
    split
    · exact ih (commentFree_tail h)
    · exact h

/-! `trim` -/

theorem dropWhile_head_false {p : Char → Bool} {l : List Char} {c : Char}
    (hh : l.head? = some c) (hp : p c = false) : l.dropWhile p = l := by
  cases l with
  | nil => rfl
  | cons a rest =>
    simp only [List.head?_cons, Option.some.injEq] at hh
    subst hh
    simp [List.dropWhile_cons, hp]

theorem trim_eq_self_of_ends {l : List Char} {h g : Char}
    (hh : l.head? = some h) (hws : isWs h = false)
    (hg : l.getLast? = some g) (gws : isWs g = false) : trim l = l := by
  unfold trim
  rw [dropWhile_head_false hh hws]
  rw [dropWhile_head_false (by rw [List.head?_reverse]; exact hg) gws]
  exact List.reverse_reverse l

theorem isWs_false_of_alnum {c : Char} (h : is_alphanumeric c = true) :
    isWs c = false := by
  by_contra hw
  simp only [Bool.not_eq_false] at hw
  unfold isWs at hw
  simp only [Bool.or_eq_true, decide_eq_true_eq] at hw
  rcases hw with ((((rfl | rfl) | rfl) | rfl) | rfl) | rfl <;>
    simp_all [is_alphanumeric, is_alpha, is_digit]

theorem mem_of_getLast?_some {l : List Char} {a : Char}
    (h : l.getLast? = some a) : a ∈ l := by
  induction l with
  | nil => simp at h
  | cons c rest ih =>
    cases rest with
    | nil =>
      simp only [List.getLast?_singleton, Option.some.injEq] at h
      simp [h]
    | cons d t =>
      rw [List.getLast?_cons_cons] at h
      exact List.mem_cons_of_mem _ (ih h)

theorem trim_all_not_ws {l : List Char}
    (h : ∀ c ∈ l, isWs c = false) : trim l = l := by
  cases hl : l with
  | nil => rfl
  | cons a rest =>
    subst hl
    rcases hg : (a :: rest).getLast? with _ | g
    · simp at hg
    · exact trim_eq_self_of_ends (List.head?_cons) (h a (by simp))
        hg (h g (mem_of_getLast?_some hg))

/-! Keyword-table facts -/

theorem reservedLookup_mem {l : List Char} {k : TT}
    (h : reservedLookup l = some k) : (l, k) ∈ reserved_words := by
  unfold reservedLookup at h
  rcases hf : reserved_words.find? (fun p => p.1 == l) with _ | a
  · rw [hf] at h; simp at h
  · rw [hf] at h
    simp only [Option.map_some', Option.some.injEq] at h
    have hmem := List.mem_of_find?_eq_some hf
    have hp := List.find?_some hf
    simp only [beq_iff_eq] at hp
    have : a = (l, k) := by
      cases a; simp_all
    rw [this] at hmem
    exact hmem

theorem reservedLookup_ne_identifier {l : List Char} {k : TT}
    (h : reservedLookup l = some k) : k ≠ TT.Identifier := by
  have hm := reservedLookup_mem h
  have hall : reserved_words.all (fun p => !(p.2 == TT.Identifier)) = true := by
    decide
  have hk := List.all_eq_true.mp hall _ hm
  simpa using hk

theorem reservedLookup_head {l : List Char} {k : TT} {c : Char}
    (h : reservedLookup l = some k) (hc : l.head? = some c) :
    is_digit c = false ∧ ¬ c = '"' := by
  have hm := reservedLookup_mem h
  have hall : reserved_words.all
      (fun p => p.1.head?.all (fun d => !(is_digit d) && !(d == '"'))) =
        true := by decide
  have hk := List.all_eq_true.mp hall _ hm
  simp only at hk
  rw [hc] at hk
  simp only [Option.all_some, Bool.and_eq_true, Bool.not_eq_true'] at hk
  refine ⟨hk.1, ?_⟩
  intro he
  rw [he] at hk
  exact Bool.noConfusion ((by decide : (('"' : Char) == '"') = true) ▸ hk.2)

theorem reservedLookup_keyword_literal {l : List Char} {k : TT}
    (h : reservedLookup l = some k) (ht : k ≠ TT.True) (hf : k ≠ TT.False) :
    litOpt l = none := by
  have hm := reservedLookup_mem h
  have hall : reserved_words.all
      (fun p => (p.2 == TT.True || p.2 == TT.False) || (litOpt p.1).isNone) =
        true := by decide
  have hk := List.all_eq_true.mp hall _ hm
  simp only [Bool.or_eq_true, beq_iff_eq, Option.isNone_iff_eq_none] at hk
  rcases hk with (hk | hk) | hk
  · exact absurd hk ht
  · exact absurd hk hf
  · exact hk

theorem reservedLookup_true : reservedLookup (chars "true") = some TT.True := rfl

theorem reservedLookup_false :
    reservedLookup (chars "false") = some TT.False := rfl

/-! Literal-parser facts for identifier lexemes -/

theorem litOpt_identifier_shape {l : List Char} {c : Char}
    (hnone : reservedLookup l = none) (hc : l.head? = some c)
    (hq : ¬ c = '"') :
    litOpt l =
      if rustF64Accepts l then some (Literal.Number l) else none := by
  have hne_t : l ≠ chars "true" := by
    intro he; rw [he, reservedLookup_true] at hnone; exact Option.noConfusion hnone
  have hne_f : l ≠ chars "false" := by
    intro he; rw [he, reservedLookup_false] at hnone; exact Option.noConfusion hnone
  unfold litOpt Literal.from_str parse_bool
  rw [if_neg hne_t, if_neg hne_f]
  unfold parse_number
  by_cases hacc : rustF64Accepts l
  · rw [if_pos hacc, if_pos hacc]
  · rw [if_neg hacc, if_neg hacc]
    unfold parse_string
    have hhead : (l.head? == some '"') = false := by
      rw [hc]; simp [hq]
    rw [hhead]
    simp

theorem rustF64Accepts_false_of_litOpt_none {l : List Char}
    (h : litOpt l = none) : rustF64Accepts l = false := by
  by_cases hacc : rustF64Accepts l = true
  · exfalso
    unfold litOpt Literal.from_str at h
    cases hb : parse_bool l with
    | ok lb =>
      rw [hb] at h
      simp at h
    | error eb =>
      rw [hb] at h
      rw [show parse_number l = Except.ok (Literal.Number l) from by
        unfold parse_number; rw [if_pos hacc]] at h
      simp at h
  · simpa using hacc

/-! Characterization of the number recognizer -/

theorem dotDigit_cons (c1 c2 : Char) (r : List Char) :
    dotDigit (c1 :: c2 :: r) = (is_dot c1 && is_digit c2) := rfl

theorem dotDigit_nil : dotDigit [] = false := rfl

theorem dotDigit_singleton (c : Char) : dotDigit [c] = false := rfl

theorem number_eq (src : List Char) (cu : Cursor) (ch : Char) :
    number src cu ch =
      some ((consumeAll (numberTakeSpec src) (cu.consume ch)).token TT.Number,
            numberRestSpec src,
            (consumeAll (numberTakeSpec src) (cu.consume ch)).clear) := by
  simp only [number, numberTakeSpec, numberRestSpec, slurp_while_eq]
  rcases hdrop : src.dropWhile is_digit with _ | ⟨c1, r1⟩
  · simp [dotDigit_nil, consumeAll_nil, Cursor.emit]
  · rcases r1 with _ | ⟨c2, r2⟩
    · simp [dotDigit_singleton, consumeAll_nil, Cursor.emit, List.take]
    · simp only [List.take_succ_cons, List.take_zero, dotDigit_cons]
      by_cases hcond : is_dot c1 && is_digit c2
      · rw [if_pos hcond, if_pos hcond]
        have hc1 : c1 = '.' := by
          have := (Bool.and_eq_true_iff.mp hcond).1
          simpa [is_dot] using this
        subst hc1
        simp only [slurp_while_eq, List.tail_cons, Cursor.emit]
        rw [consumeAll_append, consumeAll_cons]
        simp [hcond, consumeAll_nil]
      · simp [hcond, Bool.and_eq_true_iff, consumeAll_nil, Cursor.emit]

theorem number_lexeme_all_not_ws (src : List Char) (ch : Char)
    (hch : is_digit ch = true) :
    ∀ c ∈ ch :: numberTakeSpec src, isWs c = false := by
  intro c hc
  rcases List.mem_cons.mp hc with rfl | hc
  · exact isWs_false_of_alnum (by simp [is_alphanumeric, hch])
  · unfold numberTakeSpec at hc
    simp only [List.mem_append] at hc
    rcases hc with hc | hc
    · have hdg := List.mem_takeWhile_imp hc
      exact isWs_false_of_alnum (by simp [is_alphanumeric, hdg])
    · by_cases hd : dotDigit (src.dropWhile is_digit)
      · rw [if_pos hd] at hc
        rcases List.mem_cons.mp hc with rfl | hc
        · decide
        · have hdg := List.mem_takeWhile_imp hc
          exact isWs_false_of_alnum (by simp [is_alphanumeric, hdg])
      · rw [if_neg hd] at hc
        simp at hc

/-! Characterization of the identifier recognizer -/

theorem identifier_eq (src : List Char) (cu : Cursor) (ch : Char) :
    identifier src cu ch =
      ((consumeAll (src.takeWhile is_alphanumeric) (cu.consume ch)).token
          ((reservedLookup
              (consumeAll (src.takeWhile is_alphanumeric)
                (cu.consume ch)).current).getD TT.Identifier),
       src.dropWhile is_alphanumeric,
       (consumeAll (src.takeWhile is_alphanumeric) (cu.consume ch)).clear) := by
  simp only [identifier, slurp_while_eq, Cursor.emit]

theorem identifier_lexeme_all_not_ws (src : List Char) (ch : Char)
    (hch : is_alpha ch = true) :
    ∀ c ∈ ch :: src.takeWhile is_alphanumeric, isWs c = false := by
  intro c hc
  rcases List.mem_cons.mp hc with rfl | hc
  · exact isWs_false_of_alnum (by simp [is_alphanumeric, hch])
  · exact isWs_false_of_alnum (List.mem_takeWhile_imp hc)

/-! Assembly lemmas for the run invariant -/

theorem keywordProp_of_none {cuE : Cursor} {tt : TT}
    (h : reservedLookup (trim cuE.current) = none) :
    keywordProp (cuE.token tt) := by
  intro k hk
  rw [token_lexeme, h] at hk
  exact Option.noConfusion hk

theorem literalProp_of_none {cuE : Cursor} {tt : TT}
    (h : litOpt (trim cuE.current) = none) : literalProp (cuE.token tt) := by
  constructor
  · intro _ _ _ _ _
    rw [token_literal, h]
  · intro _
    rw [token_literal, token_lexeme, rustF64Accepts_false_of_litOpt_none h]
    simp [h]

theorem posLe_bump_consume (cu : Cursor) (c d : Char) :
    posLe cu.pos ((cu.bump c).consume d).pos := by
  have h := posLe_consume (cu.bump c) d
  rwa [bump_pos] at h

theorem inv_of_emit {src src' : List Char} {cu : Cursor} (cuE : Cursor) (tt : TT)
    (hpos : posLe cu.pos cuE.pos)
    (hkw : keywordProp (cuE.token tt))
    (hlit : literalProp (cuE.token tt))
    (hcf : commentFree src = true →
      commentFree src' = true ∧ balanceStep cu cuE) :
    NextInvProp src cu (tokOf (cuE.emit tt) src') := by
  refine ⟨clear_current cuE, rfl, hpos, hkw, hlit, fun hc => ?_⟩
  exact ⟨(hcf hc).1, balanceStep_clear _ _ (hcf hc).2⟩

theorem inv_lift {src src2 : List Char} {cu cuMid : Cursor} {res : NextRes}
    (hinner : NextInvProp src2 cuMid res)
    (hcurEq : cuMid.current = cu.current)
    (hpos : posLe cu.pos cuMid.pos)
    (hcf : commentFree src = true →
      commentFree src2 = true ∧ balanceStep cu cuMid) :
    NextInvProp src cu res := by
  cases res with
  | tok t src' cu' =>
    obtain ⟨h1, h2, h3, h4, h5, h6⟩ := hinner
    refine ⟨h1, h2, posLe_trans hpos h3, h4, h5, fun hc => ?_⟩
    obtain ⟨hc2, hb⟩ := hcf hc
    obtain ⟨hcf', hb'⟩ := h6 hc2
    exact ⟨hcf', balanceStep_trans hb hb'⟩
  | err e src' cu' => trivial
  | eos cu' =>
    obtain ⟨h1, h2, h3⟩ := hinner
    refine ⟨h1.trans hcurEq, posLe_trans hpos h2, fun hc => ?_⟩
    obtain ⟨hc2, hb⟩ := hcf hc
    exact balanceStep_trans hb (h3 hc2)
  | stuck => trivial

theorem dropWhile_head_prop {p : Char → Bool} {l r : List Char} {c : Char}
    (h : l.dropWhile p = c :: r) : p c = false := by
  induction l with
  | nil => simp at h
  | cons a rest ih =>
    rw [List.dropWhile_cons] at h
    split at h
    · exact ih h
    · rw [List.cons.injEq] at h
      rw [← h.1]
      next hpa => simpa using hpa

theorem commentFree_tail_any {l : List Char}
    (h : commentFree l = true) : commentFree l.tail = true := by
  cases l with
  | nil => exact h
  | cons c rest => exact commentFree_tail h

theorem down_current (cu : Cursor) : cu.down.current = cu.current := rfl

theorem forward_current (cu : Cursor) : cu.forward.current = cu.current := rfl

theorem inv_single (ch : Char) (rest : List Char) (cu : Cursor) (tt : TT)
    (hcur : cu.current = [])
    (hkw : reservedLookup (trim [ch]) = none)
    (hlit : litOpt (trim [ch]) = none) :
    NextInvProp (ch :: rest) cu (tokOf ((cu.bump ch).digest ch tt) rest) := by
  unfold Cursor.digest
  have hc : ((cu.bump ch).consume ch).current = [ch] := by
    rw [consume_current, bump_current, hcur]; rfl
  apply inv_of_emit
  · exact posLe_bump_consume cu ch ch
  · apply keywordProp_of_none; rw [hc]; exact hkw
  · apply literalProp_of_none; rw [hc]; exact hlit
  · intro hcf
    exact ⟨commentFree_tail hcf, balanceStep_bump_consume cu ch⟩

theorem inv_op (ch : Char) (rest : List Char) (cu : Cursor) (tt1 tt2 : TT)
    (hcur : cu.current = [])
    (hkw1 : reservedLookup (trim [ch]) = none)
    (hlit1 : litOpt (trim [ch]) = none)
    (hkw2 : reservedLookup (trim [ch, '=']) = none)
    (hlit2 : litOpt (trim [ch, '=']) = none) :
    NextInvProp (ch :: rest) cu
      (match (taste rest ((cu.bump ch).consume ch) '=').1 with
       | some nc =>
         tokOf ((taste rest ((cu.bump ch).consume ch) '=').2.2.digest nc tt2)
           (taste rest ((cu.bump ch).consume ch) '=').2.1
       | none =>
         tokOf ((taste rest ((cu.bump ch).consume ch) '=').2.2.emit tt1)
           (taste rest ((cu.bump ch).consume ch) '=').2.1) := by
  have hcur1 : ((cu.bump ch).consume ch).current = [ch] := by
    rw [consume_current, bump_current, hcur]; rfl
  rcases rest with _ | ⟨c, rest2⟩
  · show NextInvProp [ch] cu (tokOf (((cu.bump ch).consume ch).emit tt1) [])
    apply inv_of_emit
    · exact posLe_bump_consume cu ch ch
    · apply keywordProp_of_none; rw [hcur1]; exact hkw1
    · apply literalProp_of_none; rw [hcur1]; exact hlit1
    · intro _
      exact ⟨rfl, balanceStep_bump_consume cu ch⟩
  · by_cases hc : c = '='
    · subst hc
      rw [taste_cons_eq _ _ _ _ rfl]
      show NextInvProp (ch :: '=' :: rest2) cu
        (tokOf (((((cu.bump ch).consume ch).bump '=').consume '=').emit tt2)
          rest2)
      have hcur2 :
          ((((cu.bump ch).consume ch).bump '=').consume '=').current =
            [ch, '='] := by
        rw [consume_current, bump_current, hcur1]; rfl
      apply inv_of_emit
      · exact posLe_trans (posLe_bump_consume cu ch ch)
          (posLe_bump_consume _ '=' '=')
      · apply keywordProp_of_none; rw [hcur2]; exact hkw2
      · apply literalProp_of_none; rw [hcur2]; exact hlit2
      · intro hcf
        exact ⟨commentFree_tail (commentFree_tail hcf),
          balanceStep_trans (balanceStep_bump_consume cu ch)
            (balanceStep_bump_consume _ '=')⟩
    · rw [taste_cons_ne _ _ _ _ hc]
      show NextInvProp (ch :: c :: rest2) cu
        (tokOf (((cu.bump ch).consume ch).emit tt1) (c :: rest2))
      apply inv_of_emit
      · exact posLe_bump_consume cu ch ch
      · apply keywordProp_of_none; rw [hcur1]; exact hkw1
      · apply literalProp_of_none; rw [hcur1]; exact hlit1
      · intro hcf
        exact ⟨commentFree_tail hcf, balanceStep_bump_consume cu ch⟩

/-! The run invariant for one `next` step -/

theorem nextCore_inv (recur : List Char → Cursor → NextRes)
    (hrec : ∀ src cu, cu.current = [] → NextInvProp src cu (recur src cu)) :
    ∀ src cu, cu.current = [] → NextInvProp src cu (nextCore recur src cu) := by
  intro src cu hcur
  cases src with
  | nil =>
    exact ⟨rfl, posLe_refl _, fun _ => balanceStep_refl _⟩
  | cons ch rest =>
    simp only [nextCore]
    by_cases h1 : ch = '('
    case pos =>
      subst h1; rw [if_pos rfl]
      exact inv_single _ rest cu _ hcur (by decide) (by decide)
    rw [if_neg h1]
    by_cases h2 : ch = ')'
    case pos =>
      subst h2; rw [if_pos rfl]
      exact inv_single _ rest cu _ hcur (by decide) (by decide)
    rw [if_neg h2]
    by_cases h3 : ch = '{'
    case pos =>
      subst h3; rw [if_pos rfl]
      exact inv_single _ rest cu _ hcur (by decide) (by decide)
    rw [if_neg h3]
    by_cases h4 : ch = '}'
    case pos =>
      subst h4; rw [if_pos rfl]
      exact inv_single _ rest cu _ hcur (by decide) (by decide)
    rw [if_neg h4]
    by_cases h5 : ch = ','
    case pos =>
      subst h5; rw [if_pos rfl]
      exact inv_single _ rest cu _ hcur (by decide) (by decide)
    rw [if_neg h5]
    by_cases h6 : ch = '.'
    case pos =>
      subst h6; rw [if_pos rfl]
      exact inv_single _ rest cu _ hcur (by decide) (by decide)
    rw [if_neg h6]
    by_cases h7 : ch = '-'
    case pos =>
      subst h7; rw [if_pos rfl]
      exact inv_single _ rest cu _ hcur (by decide) (by decide)
    rw [if_neg h7]
    by_cases h8 : ch = '+'
    case pos =>
      subst h8; rw [if_pos rfl]
      exact inv_single _ rest cu _ hcur (by decide) (by decide)
    rw [if_neg h8]
    by_cases h9 : ch = ';'
    case pos =>
      subst h9; rw [if_pos rfl]
      exact inv_single _ rest cu _ hcur (by decide) (by decide)
    rw [if_neg h9]
    by_cases h10 : ch = '*'
    case pos =>
      subst h10; rw [if_pos rfl]
      exact inv_single _ rest cu _ hcur (by decide) (by decide)
    rw [if_neg h10]
    by_cases h11 : ch = '!'
    case pos =>
      subst h11; rw [if_pos rfl]
      exact inv_op _ rest cu _ _ hcur (by decide) (by decide) (by decide)
        (by decide)
    rw [if_neg h11]
    by_cases h12 : ch = '='
    case pos =>
      subst h12; rw [if_pos rfl]
      exact inv_op _ rest cu _ _ hcur (by decide) (by decide) (by decide)
        (by decide)
    rw [if_neg h12]
    by_cases h13 : ch = '<'
    case pos =>
      subst h13; rw [if_pos rfl]
      exact inv_op _ rest cu _ _ hcur (by decide) (by decide) (by decide)
        (by decide)
    rw [if_neg h13]
    by_cases h14 : ch = '>'
    case pos =>
      subst h14; rw [if_pos rfl]
      exact inv_op _ rest cu _ _ hcur (by decide) (by decide) (by decide)
        (by decide)
    rw [if_neg h14]
    by_cases h15 : ch = '/'
    case pos =>
      subst h15; rw [if_pos rfl]
      rcases rest with _ | ⟨c, rest2⟩
      · exact inv_single '/' [] cu TT.Slash hcur (by decide) (by decide)
      · by_cases hc : c = '/'
        · subst hc
          rw [taste_cons_eq _ _ _ _ rfl]
          show NextInvProp ('/' :: '/' :: rest2) cu
            (recur (skip_til '\n' rest2 ((cu.bump '/').bump '/')).1
              (skip_til '\n' rest2 ((cu.bump '/').bump '/')).2.down)
          have hmidcur :
              (skip_til '\n' rest2 ((cu.bump '/').bump '/')).2.down.current
                = [] := by
            rw [down_current, skip_til_current, bump_current, bump_current,
              hcur]
          apply inv_lift (hrec _ _ hmidcur)
          · rw [hmidcur, hcur]
          · refine posLe_trans ?_ (posLe_down _)
            have h := skip_til_pos '\n' rest2 ((cu.bump '/').bump '/')
            rwa [bump_pos, bump_pos] at h
          · intro hcf
            exact absurd hcf (by simp [commentFree])
        · rw [taste_cons_ne _ _ _ _ hc]
          exact inv_single '/' (c :: rest2) cu TT.Slash hcur (by decide)
            (by decide)
    rw [if_neg h15]
    by_cases h16 : ch = '"'
    case pos =>
      subst h16; rw [if_pos rfl]
      rw [slurp_til_eq]
      rcases hdrop : rest.dropWhile (fun c => !(c == '"')) with _ | ⟨c, rest3⟩
      · trivial
      · have hcq : c = '"' := by
          have h := dropWhile_head_prop hdrop
          simpa using h
        subst hcq
        show NextInvProp ('"' :: rest) cu
          (tokOf
            ((((consumeAll (rest.takeWhile (fun c => !(c == '"')))
                ((cu.bump '"').consume '"')).bump '"').consume '"').emit
              TT.String) rest3)
        have hcuE :
            ((((consumeAll (rest.takeWhile (fun c => !(c == '"')))
                ((cu.bump '"').consume '"')).bump '"').consume '"').current) =
              ('"' :: rest.takeWhile (fun c => !(c == '"'))) ++ ['"'] := by
          rw [consume_current, bump_current, consumeAll_current,
            consume_current, bump_current, hcur]
          simp
        have hends : trim ((('"' :: rest.takeWhile (fun c => !(c == '"')))
            ++ ['"'])) = ('"' :: rest.takeWhile (fun c => !(c == '"'))) ++ ['"'] := by
          apply trim_eq_self_of_ends (h := '"') (g := '"')
          · rw [List.cons_append]; rfl
          · decide
          · exact List.getLast?_concat _
          · decide
        apply inv_of_emit
        · exact posLe_trans (posLe_bump_consume cu '"' '"')
            (posLe_trans
              (consumeAll_pos (rest.takeWhile (fun c => !(c == '"')))
                ((cu.bump '"').consume '"'))
              (posLe_bump_consume _ '"' '"'))
        · intro k hk
          rw [token_lexeme, hcuE, hends] at hk
          have hh := reservedLookup_head hk (by rw [List.cons_append]; rfl)
          exact absurd rfl hh.2
        · constructor
          · intro hS _ _ _ _
            exact absurd (token_type_eq _ _) hS
          · intro hI
            rw [token_type_eq] at hI
            exact absurd hI (by decide)
        · intro hcf
          constructor
          · have h1 : commentFree (rest.dropWhile (fun c => !(c == '"'))) =
                true := commentFree_dropWhile _ (commentFree_tail hcf)
            rw [hdrop] at h1
            exact commentFree_tail h1
          · exact balanceStep_trans (balanceStep_bump_consume cu '"')
              (balanceStep_trans
                (consumeAll_balance (rest.takeWhile (fun c => !(c == '"')))
                  ((cu.bump '"').consume '"'))
                (balanceStep_bump_consume _ '"'))
    rw [if_neg h16]
    by_cases h17 : ch = ' '
    case pos =>
      subst h17; rw [if_pos rfl]
      apply inv_lift (hrec rest (cu.bump ' ').forward
        (by rw [forward_current, bump_current, hcur]))
      · rw [forward_current, bump_current]
      · have h := posLe_forward (cu.bump ' ')
        rwa [bump_pos] at h
      · intro hcf
        exact ⟨commentFree_tail hcf, balanceStep_bump_forward cu ' '
          (by decide)⟩
    rw [if_neg h17]
    by_cases h18 : ch = '\r'
    case pos =>
      subst h18; rw [if_pos rfl]
      apply inv_lift (hrec rest (cu.bump '\r').forward
        (by rw [forward_current, bump_current, hcur]))
      · rw [forward_current, bump_current]
      · have h := posLe_forward (cu.bump '\r')
        rwa [bump_pos] at h
      · intro hcf
        exact ⟨commentFree_tail hcf, balanceStep_bump_forward cu '\r'
          (by decide)⟩
    rw [if_neg h18]
    by_cases h19 : ch = '\t'
    case pos =>
      subst h19; rw [if_pos rfl]
      apply inv_lift (hrec rest (cu.bump '\t').forward
        (by rw [forward_current, bump_current, hcur]))
      · rw [forward_current, bump_current]
      · have h := posLe_forward (cu.bump '\t')
        rwa [bump_pos] at h
      · intro hcf
        exact ⟨commentFree_tail hcf, balanceStep_bump_forward cu '\t'
          (by decide)⟩
    rw [if_neg h19]
    by_cases h20 : ch = '\n'
    case pos =>
      subst h20; rw [if_pos rfl]
      apply inv_lift (hrec rest (cu.bump '\n').down
        (by rw [down_current, bump_current, hcur]))
      · rw [down_current, bump_current]
      · have h := posLe_down (cu.bump '\n')
        rwa [bump_pos] at h
      · intro hcf
        exact ⟨commentFree_tail hcf, balanceStep_bump_down cu⟩
    rw [if_neg h20]
    by_cases hdig : is_digit ch
    case pos =>
      rw [if_pos hdig, number_eq]
      show NextInvProp (ch :: rest) cu
        (NextRes.tok
          ((consumeAll (numberTakeSpec rest) ((cu.bump ch).consume ch)).token
            TT.Number)
          (numberRestSpec rest)
          (consumeAll (numberTakeSpec rest) ((cu.bump ch).consume ch)).clear)
      have hcu : (consumeAll (numberTakeSpec rest)
          ((cu.bump ch).consume ch)).current = ch :: numberTakeSpec rest := by
        rw [consumeAll_current, consume_current, bump_current, hcur]
        rfl
      have hlex : trim (consumeAll (numberTakeSpec rest)
          ((cu.bump ch).consume ch)).current =
          (consumeAll (numberTakeSpec rest)
            ((cu.bump ch).consume ch)).current := by
        rw [hcu]
        exact trim_all_not_ws (number_lexeme_all_not_ws rest ch hdig)
      refine ⟨rfl, rfl, ?_, ?_, ?_, ?_⟩
      · exact posLe_trans (posLe_bump_consume cu ch ch) (consumeAll_pos _ _)
      · intro k hk
        rw [token_lexeme, hlex, hcu] at hk
        have hh := reservedLookup_head hk (List.head?_cons)
        rw [hdig] at hh
        exact Bool.noConfusion hh.1
      · constructor
        · intro _ hN _ _ _
          exact absurd (token_type_eq _ _) hN
        · intro hI
          rw [token_type_eq] at hI
          exact absurd hI (by decide)
      · intro hcf
        constructor
        · unfold numberRestSpec
          have h1 : commentFree (rest.dropWhile is_digit) = true :=
            commentFree_dropWhile _ (commentFree_tail hcf)
          by_cases hd : dotDigit (rest.dropWhile is_digit)
          · rw [if_pos hd]
            exact commentFree_dropWhile _ (commentFree_tail_any h1)
          · rw [if_neg hd]
            exact h1
        · exact balanceStep_clear _ _ (balanceStep_trans
            (balanceStep_bump_consume cu ch) (consumeAll_balance _ _))
    rw [if_neg hdig]
    by_cases halpha : is_alpha ch
    case pos =>
      rw [if_pos halpha, identifier_eq]
      show NextInvProp (ch :: rest) cu
        (NextRes.tok
          ((consumeAll (rest.takeWhile is_alphanumeric)
              ((cu.bump ch).consume ch)).token
            ((reservedLookup
                (consumeAll (rest.takeWhile is_alphanumeric)
                  ((cu.bump ch).consume ch)).current).getD TT.Identifier))
          (rest.dropWhile is_alphanumeric)
          (consumeAll (rest.takeWhile is_alphanumeric)
            ((cu.bump ch).consume ch)).clear)
      have hcu : (consumeAll (rest.takeWhile is_alphanumeric)
          ((cu.bump ch).consume ch)).current =
          ch :: rest.takeWhile is_alphanumeric := by
        rw [consumeAll_current, consume_current, bump_current, hcur]
        rfl
      have hlex : trim (consumeAll (rest.takeWhile is_alphanumeric)
          ((cu.bump ch).consume ch)).current =
          (consumeAll (rest.takeWhile is_alphanumeric)
            ((cu.bump ch).consume ch)).current := by
        rw [hcu]
        exact trim_all_not_ws (identifier_lexeme_all_not_ws rest ch halpha)
      refine ⟨rfl, rfl, ?_, ?_, ?_, ?_⟩
      · exact posLe_trans (posLe_bump_consume cu ch ch) (consumeAll_pos _ _)
      · intro k hk
        rw [token_lexeme, hlex] at hk
        rw [token_type_eq, hk]
        rfl
      · rcases hres : reservedLookup (consumeAll
            (rest.takeWhile is_alphanumeric)
            ((cu.bump ch).consume ch)).current with _ | k
        · constructor
          · intro _ _ _ _ hI
            rw [token_type_eq] at hI
            simp only [Option.getD_none] at hI
            exact absurd rfl hI
          · intro _
            have hq : ¬ ch = '"' := by
              intro he
              rw [he] at halpha
              exact Bool.noConfusion ((by decide : is_alpha '"' = false) ▸ halpha)
            have hshape := litOpt_identifier_shape (c := ch)
              hres (by rw [hcu]; exact List.head?_cons) hq
            rw [token_literal, token_lexeme, hlex, hshape]
        · constructor
          · intro _ _ hT hF _
            rw [token_type_eq] at hT hF
            simp only [Option.getD_some] at hT hF
            rw [token_literal, hlex]
            exact reservedLookup_keyword_literal hres hT hF
          · intro hI
            rw [token_type_eq] at hI
            simp only [Option.getD_some] at hI
            exact absurd hI (reservedLookup_ne_identifier hres)
      · intro hcf
        constructor
        · exact commentFree_dropWhile _ (commentFree_tail hcf)
        · exact balanceStep_clear _ _ (balanceStep_trans
            (balanceStep_bump_consume cu ch) (consumeAll_balance _ _))
    rw [if_neg halpha]
    trivial

theorem next_inv (fuel : Nat) :
    ∀ src cu, cu.current = [] → NextInvProp src cu (next fuel src cu) := by
  induction fuel with
  | zero => intro src cu _; trivial
  | succ fuel ih => exact nextCore_inv (next fuel) ih

/-! The run invariant for the collection loop -/

theorem mem_of_mem_head? {b : Token} {l : List Token}
    (h : b ∈ l.head?) : b ∈ l := by
  cases l with
  | nil => simp at h
  | cons a t =>
    simp only [List.head?_cons, Option.mem_def, Option.some.injEq] at h
    simp [h]

theorem scanLoop_inv (fuel : Nat) :
    ∀ src cu toks cuF, cu.current = [] →
      scanLoop fuel src cu = some (.ok toks, cuF) →
      (∀ t ∈ toks, keywordProp t ∧ literalProp t) ∧
      List.Chain' (fun a b => posLe a.position b.position) toks ∧
      (∀ t ∈ toks, posLe cu.pos t.position) ∧
      (commentFree src = true → balanceStep cu cuF) := by
  induction fuel with
  | zero =>
    intro src cu toks cuF _ h
    simp [scanLoop] at h
  | succ fuel ih =>
    intro src cu toks cuF hcur h
    have hinv := next_inv (src.length + 1) src cu hcur
    simp only [scanLoop] at h
    split at h
    case _ cu' heq =>
      rw [heq] at hinv
      obtain ⟨hc1, hc2, hc3⟩ := hinv
      simp only [Option.some.injEq, Prod.mk.injEq, Except.ok.injEq] at h
      obtain ⟨hts, hcuF⟩ := h
      subst hcuF
      rw [← hts]
      exact ⟨by simp, by simp, by simp, hc3⟩
    case _ t src' cu' heq =>
      rw [heq] at hinv
      obtain ⟨hc1, hc2, hc3, hc4, hc5, hc6⟩ := hinv
      split at h
      case _ ts cuF' hloop =>
        simp only [Option.some.injEq, Prod.mk.injEq, Except.ok.injEq] at h
        obtain ⟨hts, hcuF⟩ := h
        subst hcuF
        rw [← hts]
        obtain ⟨ihall, ihchain, ihge, ihbal⟩ := ih src' cu' ts _ hc1 hloop
        refine ⟨?_, ?_, ?_, ?_⟩
        · intro t' ht'
          rcases List.mem_cons.mp ht' with rfl | ht'
          · exact ⟨hc4, hc5⟩
          · exact ihall t' ht'
        · rw [List.chain'_cons']
          refine ⟨fun b hb => ?_, ihchain⟩
          rw [hc2]
          exact ihge b (mem_of_mem_head? hb)
        · intro t' ht'
          rcases List.mem_cons.mp ht' with rfl | ht'
          · rw [hc2]; exact hc3
          · exact posLe_trans hc3 (ihge t' ht')
        · intro hcf
          obtain ⟨hcf', hbal⟩ := hc6 hcf
          exact balanceStep_trans hbal (ihbal hcf')
      case _ e cuF' hloop => simp at h
      case _ hloop => simp at h
    case _ e a cu' heq => simp at h
    case _ heq => simp at h

theorem scanFull_ok_inv (src : List Char) (toks : List Token) (cuF : Cursor)
    (h : scanFull src = some (.ok toks, cuF)) :
    (∀ t ∈ toks, keywordProp t ∧ literalProp t) ∧
    List.Chain' (fun a b => posLe a.position b.position) toks ∧
    (commentFree src = true → balanceStep cursor0 cuF) := by
  obtain ⟨h1, h2, _, h4⟩ :=
    scanLoop_inv (src.length + 1) src cursor0 toks cuF rfl h
  exact ⟨h1, h2, h4⟩

theorem scan_ok_inv (src : List Char) (toks : List Token)
    (h : scan src = some (.ok toks)) :
    (∀ t ∈ toks, keywordProp t ∧ literalProp t) ∧
    List.Chain' (fun a b => posLe a.position b.position) toks := by
  unfold scan at h
  rcases hf : scanFull src with _ | ⟨r, cuF⟩ <;> rw [hf] at h
  · simp at h
  · simp only [Option.map_some', Option.some.injEq] at h
    obtain ⟨h1, h2, _⟩ := scanFull_ok_inv src toks cuF (by rw [hf, h])
    exact ⟨h1, h2⟩

/-! Characterization of `parse_string` -/

theorem parse_string_ok_iff (s : List Char) (x : Literal) :
    parse_string s = .ok x ↔
      2 ≤ s.length ∧ s.head? = some '"' ∧ s.getLast? = some '"' ∧
        x = Literal.String ((s.drop 1).take (s.length - 2)) := by
  unfold parse_string strGetRange
  by_cases h1 : s.head? = some '"'
  · by_cases h2 : s.getLast? = some '"'
    · rw [if_neg (by simp [h1, h2])]
      have hpos : 1 ≤ s.length := by
        cases s with
        | nil => simp at h1
        | cons a t => simp
      by_cases h3 : 2 ≤ s.length
      · rw [if_pos ⟨by omega, by omega⟩]
        simp only [Except.ok.injEq]
        constructor
        · intro he
          refine ⟨h3, h1, h2, ?_⟩
          rw [← he, Nat.sub_sub]
        · rintro ⟨_, _, _, he⟩
          rw [he, Nat.sub_sub]
      · rw [if_neg (by omega)]
        simp only [reduceCtorEq, false_iff, not_and]
        intro hlen
        exact absurd hlen h3
    · rw [if_pos (by simp [h2])]
      simp only [reduceCtorEq, false_iff, not_and]
      intro _ _ hg
      exact absurd hg h2
  · rw [if_pos (by simp [h1])]
    simp only [reduceCtorEq, false_iff, not_and]
    intro _ hh
    exact absurd hh h1

/-! Claim theorems -/

/-- Claim C1: the number recognizer consumes the first digit and the consecutive
digits, and consumes a `.` together with the following digit run exactly when
the two-character lookahead sees `.` followed by a digit (`numberTakeSpec`);
otherwise the `.` stays in the stream (`numberRestSpec`), to be classified by
the next dispatch.  In particular scanning `1.2.3` yields exactly
Number(`1.2`), Dot(`.`), Number(`3`). -/
theorem c1_number_lookahead :
    (∀ src cu ch, number src cu ch =
      some ((consumeAll (numberTakeSpec src) (cu.consume ch)).token TT.Number,
            numberRestSpec src,
            (consumeAll (numberTakeSpec src) (cu.consume ch)).clear)) ∧
    scan (chars "1.2.3") =
      some (.ok
        [⟨TT.Number, chars "1.2", some (Literal.Number (chars "1.2")), (0, 3)⟩,
         ⟨TT.Dot, chars ".", none, (0, 4)⟩,
         ⟨TT.Number, chars "3", some (Literal.Number (chars "3")), (0, 5)⟩]) :=
  ⟨number_eq, by rfl⟩

/-- Claim C10: the unwrap of `source.next()` in the number recognizer never
panics: `number` (whose `none` result models that panic) is total. -/
theorem c10_number_no_panic :
    ∀ src cu ch, (number src cu ch).isSome = true := by
  intro src cu ch
  rw [number_eq]
  rfl

/-- Claim C7: for any source that scans without error, the emitted token sequence
has lexicographically non-decreasing positions. -/
theorem c7_positions_monotone (src : List Char) (toks : List Token)
    (h : scan src = some (.ok toks)) :
    List.Chain' (fun a b => posLe a.position b.position) toks :=
  (scan_ok_inv src toks h).2

theorem c7_positions_monotone_w :
    List.Chain' (fun a b : Token => posLe a.position b.position)
      [⟨TT.Number, chars "1", some (Literal.Number (chars "1")), (0, 1)⟩,
       ⟨TT.Number, chars "2", some (Literal.Number (chars "2")), (0, 3)⟩] :=
  c7_positions_monotone (chars "1 2")
    [⟨TT.Number, chars "1", some (Literal.Number (chars "1")), (0, 1)⟩,
     ⟨TT.Number, chars "2", some (Literal.Number (chars "2")), (0, 3)⟩] rfl

/-- Claim C8: every token whose lexeme is one of the sixteen reserved-word
spellings carries the mapped keyword kind, never `Identifier`. -/
theorem c8_keywords (src : List Char) (toks : List Token)
    (h : scan src = some (.ok toks)) :
    ∀ t ∈ toks, ∀ k, reservedLookup t.lexeme = some k →
      t.token_type = k ∧ t.token_type ≠ TT.Identifier := by
  intro t ht k hk
  have hkw := ((scan_ok_inv src toks h).1 t ht).1 k hk
  refine ⟨hkw, ?_⟩
  rw [hkw]
  exact reservedLookup_ne_identifier hk

theorem c8_keywords_w :
    (⟨TT.And, chars "and", none, (0, 3)⟩ : Token).token_type = TT.And ∧
    (⟨TT.And, chars "and", none, (0, 3)⟩ : Token).token_type ≠
      TT.Identifier :=
  c8_keywords (chars "and") [⟨TT.And, chars "and", none, (0, 3)⟩] rfl
    ⟨TT.And, chars "and", none, (0, 3)⟩ (by simp) TT.And rfl

/-- Claim C3, counterexample: scanning `inf` produces an `Identifier` token that
carries a number literal: the literal field is not absent. -/
theorem c3_counterexample :
    scan (chars "inf") =
      some (.ok [⟨TT.Identifier, chars "inf",
        some (Literal.Number (chars "inf")), (0, 3)⟩]) := by rfl

/-- Claim C3, amended: tokens of kind other than `String`, `Number`, `True`,
`False` and `Identifier` carry no literal; an `Identifier` token carries no
literal unless the float parser accepts its spelling (e.g. `inf`, `NaN`), in
which case it carries exactly the number literal made of its own lexeme. -/
theorem c3_literal_discipline (src : List Char) (toks : List Token)
    (h : scan src = some (.ok toks)) :
    ∀ t ∈ toks,
      (t.token_type ≠ TT.String → t.token_type ≠ TT.Number →
        t.token_type ≠ TT.True → t.token_type ≠ TT.False →
        t.token_type ≠ TT.Identifier → t.literal = none) ∧
      (t.token_type = TT.Identifier →
        t.literal =
          if rustF64Accepts t.lexeme then some (Literal.Number t.lexeme)
          else none) :=
  fun t ht => ((scan_ok_inv src toks h).1 t ht).2

theorem c3_literal_discipline_w :
    (⟨TT.Plus, chars "+", none, (0, 1)⟩ : Token).literal = none ∧
    (⟨TT.Identifier, chars "x", none, (0, 1)⟩ : Token).literal =
      (if rustF64Accepts (chars "x") then some (Literal.Number (chars "x"))
       else none) ∧
    (⟨TT.Identifier, chars "inf", some (Literal.Number (chars "inf")),
        (0, 3)⟩ : Token).literal =
      (if rustF64Accepts (chars "inf")
       then some (Literal.Number (chars "inf")) else none) :=
  ⟨(c3_literal_discipline (chars "+") [⟨TT.Plus, chars "+", none, (0, 1)⟩] rfl
      ⟨TT.Plus, chars "+", none, (0, 1)⟩ (by simp)).1
      (by decide) (by decide) (by decide) (by decide) (by decide),
   (c3_literal_discipline (chars "x")
      [⟨TT.Identifier, chars "x", none, (0, 1)⟩] rfl
      ⟨TT.Identifier, chars "x", none, (0, 1)⟩ (by simp)).2 rfl,
   (c3_literal_discipline (chars "inf")
      [⟨TT.Identifier, chars "inf", some (Literal.Number (chars "inf")),
        (0, 3)⟩] rfl
      ⟨TT.Identifier, chars "inf", some (Literal.Number (chars "inf")),
        (0, 3)⟩ (by simp)).2 rfl⟩

/-- Claim C6, counterexample: scanning `//` consumes two characters but performs
zero `forward` updates and one `down` with zero consumed newlines: the final
state is `(line 1, col 0, consumed 2, newlines 0, forwards 0, downs 1)`, so
the consumed characters did not each trigger exactly one matching update. -/
theorem c6_counterexample :
    scanFull (chars "//") = some (.ok [], ⟨1, 0, [], 2, 0, 0, 1⟩) ∧
    ¬ (∀ src r cuF, scanFull src = some (r, cuF) →
        cuF.downs = cuF.consumedNl ∧
          cuF.forwards + cuF.downs = cuF.consumed) := by
  refine ⟨rfl, fun hall => ?_⟩
  have h := hall (chars "//") (.ok []) ⟨1, 0, [], 2, 0, 0, 1⟩ rfl
  simp at h

/-- Claim C6, amended: for comment-free sources that scan without error, every
consumed character triggers exactly one position update: the `down` count
equals the number of consumed newlines, and the total update count equals
the number of consumed characters. -/
theorem c6_balanced (src : List Char) (toks : List Token) (cuF : Cursor)
    (hcf : commentFree src = true)
    (h : scanFull src = some (.ok toks, cuF)) :
    cuF.downs = cuF.consumedNl ∧ cuF.forwards + cuF.downs = cuF.consumed := by
  have hb := (scanFull_ok_inv src toks cuF h).2.2 hcf
  unfold balanceStep cursor0 at hb
  simp only at hb
  omega

theorem c6_balanced_w :
    (⟨0, 1, [], 1, 0, 1, 0⟩ : Cursor).downs =
      (⟨0, 1, [], 1, 0, 1, 0⟩ : Cursor).consumedNl ∧
    (⟨0, 1, [], 1, 0, 1, 0⟩ : Cursor).forwards +
        (⟨0, 1, [], 1, 0, 1, 0⟩ : Cursor).downs =
      (⟨0, 1, [], 1, 0, 1, 0⟩ : Cursor).consumed :=
  c6_balanced (chars "1")
    [⟨TT.Number, chars "1", some (Literal.Number (chars "1")), (0, 1)⟩]
    ⟨0, 1, [], 1, 0, 1, 0⟩ (by decide) rfl

/-- Claim C2, counterexample: scanning `"abc` (no closing quote) yields an error
whose message is the unexpected-character message
`Unexpected character: "\"abc"`: the scanner has a single error shape and
the unterminated string is reported through the unexpected-character
constructor, not through a distinct unterminated-string kind. -/
theorem c2_counterexample :
    scan (chars "\"abc") =
      some (.error ⟨(0, 4), chars "Unexpected character: \"\\\"abc\""⟩) := by
  rfl

/-- Claim C2, amended: from any scanner state, when a `"` opens a string literal
and no closing `"` occurs before end of input, `next` yields an error — but
it is the unexpected-character error (`unexpected_error`), carrying the
position tracked across the unterminated literal, not a distinct
unterminated-string kind. -/
theorem c2_unterminated (fuel : Nat) (rest : List Char) (cu : Cursor)
    (h : ∀ c ∈ rest, ¬ c = '"') :
    next (fuel + 1) ('"' :: rest) cu =
      .err (unexpected_error (consumeAll rest ((cu.bump '"').consume '"'))) []
        (consumeAll rest ((cu.bump '"').consume '"')) := by
  have hdw : rest.dropWhile (fun c => !(c == '"')) = [] := by
    rw [List.dropWhile_eq_nil_iff]
    intro x hx
    simpa using h x hx
  have htw : rest.takeWhile (fun c => !(c == '"')) = rest := by
    rw [List.takeWhile_eq_self_iff]
    intro x hx
    simpa using h x hx
  show nextCore (next fuel) ('"' :: rest) cu = _
  simp only [nextCore]
  rw [if_neg (by decide : ¬('"' = '(')), if_neg (by decide : ¬('"' = ')')),
    if_neg (by decide : ¬('"' = '{')), if_neg (by decide : ¬('"' = '}')),
    if_neg (by decide : ¬('"' = ',')), if_neg (by decide : ¬('"' = '.')),
    if_neg (by decide : ¬('"' = '-')), if_neg (by decide : ¬('"' = '+')),
    if_neg (by decide : ¬('"' = ';')), if_neg (by decide : ¬('"' = '*')),
    if_neg (by decide : ¬('"' = '!')), if_neg (by decide : ¬('"' = '=')),
    if_neg (by decide : ¬('"' = '<')), if_neg (by decide : ¬('"' = '>')),
    if_neg (by decide : ¬('"' = '/')), if_pos trivial]
  rw [slurp_til_eq, hdw, htw]

theorem c2_unterminated_w :
    next 1 ('"' :: chars "abc") cursor0 =
      .err (unexpected_error (consumeAll (chars "abc")
        ((cursor0.bump '"').consume '"'))) []
        (consumeAll (chars "abc") ((cursor0.bump '"').consume '"')) :=
  c2_unterminated 0 (chars "abc") cursor0 (by decide)

/-- Claim C5, code bug evidence: on input `@` the scanner yields an error at the current
position, but the offending character is never pushed into the buffer, so
the message renders an empty string (`Unexpected character: ""`) instead of
containing `@`. -/
theorem c5_unexpected_empty_text :
    scan (chars "@") =
      some (.error ⟨(0, 0), chars "Unexpected character: \"\"" ⟩) := by
  rfl

/-- Claim C9: the string branch of the literal parser succeeds exactly on texts
of length at least two that begin and end with `"`, with the slice between
the quotes as payload; `""` parses to the empty string payload. -/
theorem c9_string_branch :
    (∀ s x, parse_string s = .ok x ↔
      2 ≤ s.length ∧ s.head? = some '"' ∧ s.getLast? = some '"' ∧
        x = Literal.String ((s.drop 1).take (s.length - 2))) ∧
    parse_string (chars "\"\"") = .ok (Literal.String []) :=
  ⟨parse_string_ok_iff, by rfl⟩

/-! Equivalence of the float acceptor with the declarative grammar -/

theorem isSign_cases {d : Char} (h : isSign d = true) : d = '+' ∨ d = '-' := by
  unfold isSign at h
  simpa using h

theorem isSign_not_digit {d : Char} (h : isSign d = true) :
    is_digit d = false := by
  rcases isSign_cases h with rfl | rfl <;> decide

theorem digit_not_sign {d : Char} (h : is_digit d = true) :
    isSign d = false := by
  cases hs : isSign d
  · rfl
  · have h2 := isSign_not_digit hs
    rw [h] at h2
    exact h2

theorem stripSign_cons_sign {d : Char} (ds : List Char)
    (hs : isSign d = true) : stripSign (d :: ds) = ds := by
  simp [stripSign, hs]

theorem stripSign_cons_not_sign {d : Char} (ds : List Char)
    (hs : isSign d = false) : stripSign (d :: ds) = d :: ds := by
  simp [stripSign, hs]

theorem ne_nil_isEmpty {l : List Char} (h : l ≠ []) : l.isEmpty = false := by
  cases l with
  | nil => exact absurd rfl h
  | cons a t => rfl

theorem expOk_iff (e : List Char) : expOk e = true ↔ ExpOpt e := by
  constructor
  · intro h
    cases e with
    | nil => exact Or.inl rfl
    | cons c rest =>
      simp only [expOk] at h
      rw [Bool.and_eq_true] at h
      obtain ⟨hce, hr⟩ := h
      cases rest with
      | nil => simp [stripSign] at hr
      | cons d ds =>
        by_cases hs : isSign d
        · rw [stripSign_cons_sign ds hs] at hr
          rw [Bool.and_eq_true] at hr
          obtain ⟨hne, hall⟩ := hr
          right
          refine ⟨[d], ds, ?_, ?_, ?_, ?_⟩
          · rw [Bool.or_eq_true] at hce
            rcases hce with hce | hce
            · left
              rw [show c = 'e' from by simpa using hce]
              rfl
            · right
              rw [show c = 'E' from by simpa using hce]
              rfl
          · rcases isSign_cases hs with rfl | rfl
            · exact Or.inr (Or.inl rfl)
            · exact Or.inr (Or.inr rfl)
          · intro heq
            rw [heq] at hne
            exact Bool.noConfusion hne
          · exact fun x hx => List.all_eq_true.mp hall x hx
        · rw [stripSign_cons_not_sign ds (by simpa using hs)] at hr
          rw [Bool.and_eq_true] at hr
          obtain ⟨_, hall⟩ := hr
          right
          refine ⟨[], d :: ds, ?_, Or.inl rfl, ?_, ?_⟩
          · rw [Bool.or_eq_true] at hce
            rcases hce with hce | hce
            · left
              rw [show c = 'e' from by simpa using hce]
              rfl
            · right
              rw [show c = 'E' from by simpa using hce]
              rfl
          · exact List.cons_ne_nil d ds
          · exact fun x hx => List.all_eq_true.mp hall x hx
  · intro h
    rcases h with rfl | ⟨sgn, ds, hor, hsgn, hne, hall⟩
    · rfl
    · have hall' : ds.all is_digit = true :=
        List.all_eq_true.mpr fun x hx => hall x hx
      rcases hsgn with rfl | rfl | rfl
      · cases ds with
        | nil => exact absurd rfl hne
        | cons d ds' =>
          have hds : isSign d = false :=
            digit_not_sign (hall d (by simp))
          rcases hor with rfl | rfl <;>
            simp [expOk, stripSign, hds, hall']
      · rcases hor with rfl | rfl <;>
          simp [expOk, stripSign, isSign, ne_nil_isEmpty hne, hall']
      · rcases hor with rfl | rfl <;>
          simp [expOk, stripSign, isSign, ne_nil_isEmpty hne, hall']

theorem ExpOpt_shape {e : List Char} (h : ExpOpt e) :
    e = [] ∨ ∃ d bs, e = d :: bs ∧ is_digit d = false ∧ is_dot d = false := by
  rcases h with rfl | ⟨sgn, ds, hor, _, _⟩
  · exact Or.inl rfl
  · right
    rcases hor with rfl | rfl
    · exact ⟨'e', sgn ++ ds, rfl, by decide, by decide⟩
    · exact ⟨'E', sgn ++ ds, rfl, by decide, by decide⟩

theorem takeWhile_digits_append {a b : List Char}
    (ha : ∀ c ∈ a, is_digit c = true)
    (hb : b = [] ∨ ∃ d bs, b = d :: bs ∧ is_digit d = false) :
    (a ++ b).takeWhile is_digit = a ∧ (a ++ b).dropWhile is_digit = b := by
  constructor
  · rw [List.takeWhile_append_of_pos ha]
    rcases hb with rfl | ⟨d, bs, rfl, hd⟩
    · simp
    · rw [List.takeWhile_cons_of_neg (by simp [hd])]
      simp
  · rw [List.dropWhile_append_of_pos ha]
    rcases hb with rfl | ⟨d, bs, rfl, hd⟩
    · simp
    · rw [List.dropWhile_cons_of_neg (by simp [hd])]

theorem numberOk_iff (t : List Char) : numberOk t = true ↔ NumberSpec t := by
  constructor
  · intro h
    unfold numberOk at h
    have hsplit := List.takeWhile_append_dropWhile is_digit t
    by_cases hemp : (t.takeWhile is_digit).isEmpty = true
    · rw [if_pos hemp] at h
      rw [List.isEmpty_eq_true] at hemp
      rcases hdrop : t.dropWhile is_digit with _ | ⟨c1, r2⟩ <;>
        rw [hdrop] at h
      · simp [numberFracOnly] at h
      · simp only [numberFracOnly, Bool.and_eq_true] at h
        obtain ⟨hdot, hne, hexp⟩ := h
        have hc1 : c1 = '.' := by simpa [is_dot] using hdot
        subst hc1
        have ht : t = '.' :: r2 := by
          rw [hemp, hdrop] at hsplit
          exact hsplit.symm
        refine ⟨'.' :: r2.takeWhile is_digit, r2.dropWhile is_digit, ?_, ?_,
          (expOk_iff _).mp hexp⟩
        · rw [ht, List.cons_append, List.takeWhile_append_dropWhile]
        · refine Or.inr (Or.inr ⟨r2.takeWhile is_digit, rfl, ?_, ?_⟩)
          · rw [← List.isEmpty_eq_false]
            simpa using hne
          · exact fun x hx => List.mem_takeWhile_imp hx
    · rw [if_neg hemp] at h
      rw [Bool.not_eq_true, List.isEmpty_eq_false] at hemp
      have hdig : ∀ c ∈ t.takeWhile is_digit, is_digit c = true :=
        fun x hx => List.mem_takeWhile_imp hx
      rcases hdrop : t.dropWhile is_digit with _ | ⟨c1, r2⟩ <;>
        rw [hdrop] at h
      · refine ⟨t.takeWhile is_digit, [], ?_, Or.inl ⟨hemp, hdig⟩,
          Or.inl rfl⟩
        rw [List.append_nil]
        conv_lhs => rw [← hsplit, hdrop]
        rw [List.append_nil]
      · by_cases hdot : is_dot c1
        · simp only [numberAfterInt] at h
          rw [if_pos hdot] at h
          have hc1 : c1 = '.' := by simpa [is_dot] using hdot
          subst hc1
          refine ⟨t.takeWhile is_digit ++ '.' :: r2.takeWhile is_digit,
            r2.dropWhile is_digit, ?_, ?_, (expOk_iff _).mp h⟩
          · rw [List.append_assoc, List.cons_append,
              List.takeWhile_append_dropWhile, ← hdrop, hsplit]
          · refine Or.inr (Or.inl ⟨t.takeWhile is_digit,
              r2.takeWhile is_digit, rfl, ⟨hemp, hdig⟩, ?_⟩)
            exact fun x hx => List.mem_takeWhile_imp hx
        · simp only [numberAfterInt] at h
          rw [if_neg hdot] at h
          refine ⟨t.takeWhile is_digit, c1 :: r2, ?_, Or.inl ⟨hemp, hdig⟩,
            (expOk_iff _).mp h⟩
          rw [← hdrop, hsplit]
  · rintro ⟨m, e, rfl, hm, he⟩
    have heb : e = [] ∨ ∃ d bs, e = d :: bs ∧ is_digit d = false := by
      rcases ExpOpt_shape he with rfl | ⟨d, bs, rfl, hd, _⟩
      · exact Or.inl rfl
      · exact Or.inr ⟨d, bs, rfl, hd⟩
    rcases hm with ⟨hne, hdig⟩ | ⟨ds, fs, rfl, ⟨hdne, hdsdig⟩, hfsdig⟩ |
      ⟨fs, rfl, hfne, hfdig⟩
    · obtain ⟨htake, hdrop⟩ := takeWhile_digits_append hdig heb
      unfold numberOk
      rw [if_neg (by rw [htake]; simpa using ne_nil_isEmpty hne)]
      rw [hdrop]
      rcases ExpOpt_shape he with rfl | ⟨d, bs, rfl, _, hdd⟩
      · rfl
      · simp only [numberAfterInt]
        rw [if_neg (by simp [hdd])]
        exact (expOk_iff _).mpr he
    · have hb2 : (fs ++ e).dropWhile is_digit = e :=
        (takeWhile_digits_append hfsdig heb).2
      have hbody : ('.' :: (fs ++ e)) = [] ∨
          ∃ d bs, ('.' :: (fs ++ e)) = d :: bs ∧ is_digit d = false :=
        Or.inr ⟨'.', fs ++ e, rfl, by decide⟩
      obtain ⟨htake, hdrop⟩ := takeWhile_digits_append hdsdig hbody
      rw [List.append_assoc, List.cons_append]
      unfold numberOk
      rw [if_neg (by rw [htake]; simpa using ne_nil_isEmpty hdne)]
      rw [hdrop]
      simp only [numberAfterInt]
      rw [if_pos (by decide)]
      rw [hb2]
      exact (expOk_iff _).mpr he
    · have hb2 : (fs ++ e).dropWhile is_digit = e :=
        (takeWhile_digits_append hfdig heb).2
      have hb1 : (fs ++ e).takeWhile is_digit = fs :=
        (takeWhile_digits_append hfdig heb).1
      rw [List.cons_append]
      unfold numberOk
      rw [if_pos (by rw [List.takeWhile_cons_of_neg (by decide)]; rfl)]
      rw [List.dropWhile_cons_of_neg (by decide)]
      simp only [numberFracOnly]
      rw [hb1, hb2]
      simp only [Bool.and_eq_true]
      refine ⟨by decide, by simpa using ne_nil_isEmpty hfne,
        (expOk_iff _).mpr he⟩

theorem specialOk_iff (t : List Char) : specialOk t = true ↔ SpecialSpec t := by
  unfold specialOk SpecialSpec
  simp [Bool.or_eq_true, beq_iff_eq, or_assoc]

theorem SpecialSpec_head {t : List Char} (h : SpecialSpec t) :
    ∀ c, t.head? = some c → isSign c = false := by
  intro c hc
  cases t with
  | nil => simp at hc
  | cons a rest =>
    simp only [List.head?_cons, Option.some.injEq] at hc
    subst hc
    by_contra hs
    rw [Bool.not_eq_false] at hs
    rcases isSign_cases hs with rfl | rfl <;>
      rcases h with h | h | h <;> simp only [chars, List.map_cons,
        List.cons.injEq] at h <;> exact absurd h.1 (by decide)

theorem NumberSpec_head {t : List Char} (h : NumberSpec t) :
    ∀ c, t.head? = some c → isSign c = false := by
  intro c hc
  obtain ⟨m, e, rfl, hm, _⟩ := h
  rcases hm with ⟨hne, hdig⟩ | ⟨ds, fs, rfl, ⟨hdne, hdsdig⟩, _⟩ |
    ⟨fs, rfl, _, _⟩
  · cases m with
    | nil => exact absurd rfl hne
    | cons a rest =>
      simp only [List.cons_append, List.head?_cons, Option.some.injEq] at hc
      subst hc
      exact digit_not_sign (hdig _ (by simp))
  · cases ds with
    | nil => exact absurd rfl hdne
    | cons a rest =>
      simp only [List.cons_append, List.append_assoc, List.head?_cons,
        Option.some.injEq] at hc
      subst hc
      exact digit_not_sign (hdsdig _ (by simp))
  · simp only [List.cons_append, List.head?_cons, Option.some.injEq] at hc
    subst hc
    decide

theorem stripSign_of_head {t : List Char}
    (h : ∀ c, t.head? = some c → isSign c = false) : stripSign t = t := by
  cases t with
  | nil => rfl
  | cons c rest => exact stripSign_cons_not_sign rest (h c rfl)

theorem rustF64Accepts_iff (s : List Char) :
    rustF64Accepts s = true ↔ FloatSpec s := by
  constructor
  · intro h
    simp only [rustF64Accepts, Bool.or_eq_true] at h
    cases s with
    | nil =>
      rcases h with h | h
      · rw [show stripSign [] = [] from rfl] at h
        simp [specialOk, chars] at h
      · rw [show stripSign [] = [] from rfl] at h
        simp [numberOk, numberFracOnly] at h
    | cons c s' =>
      by_cases hsg : isSign c
      · rw [stripSign_cons_sign s' hsg] at h
        refine ⟨[c], s', rfl, ?_, ?_⟩
        · rcases isSign_cases hsg with rfl | rfl
          · exact Or.inr (Or.inl rfl)
          · exact Or.inr (Or.inr rfl)
        · rcases h with h | h
          · exact Or.inl ((specialOk_iff _).mp h)
          · exact Or.inr ((numberOk_iff _).mp h)
      · rw [stripSign_cons_not_sign s' (by simpa using hsg)] at h
        refine ⟨[], c :: s', rfl, Or.inl rfl, ?_⟩
        rcases h with h | h
        · exact Or.inl ((specialOk_iff _).mp h)
        · exact Or.inr ((numberOk_iff _).mp h)
  · rintro ⟨sgn, t, rfl, hsgn, ht⟩
    simp only [rustF64Accepts, Bool.or_eq_true]
    have hstrip : stripSign (sgn ++ t) = t := by
      rcases hsgn with rfl | rfl | rfl
      · rw [List.nil_append]
        refine stripSign_of_head ?_
        rcases ht with ht | ht
        · exact SpecialSpec_head ht
        · exact NumberSpec_head ht
      · rfl
      · rfl
    rw [hstrip]
    rcases ht with ht | ht
    · exact Or.inl ((specialOk_iff _).mpr ht)
    · exact Or.inr ((numberOk_iff _).mpr ht)

/-- Claim C4, counterexample: the number branch accepts the exponent form `1e5`
and the infinity spelling `inf` (while indeed rejecting hexadecimal
`0x1F`), contradicting the claim that exponents and infinities are
rejected. -/
theorem c4_counterexample :
    parse_number (chars "1e5") = .ok (Literal.Number (chars "1e5")) ∧
    parse_number (chars "inf") = .ok (Literal.Number (chars "inf")) ∧
    parse_number (chars "0x1F") =
      .error ⟨chars "0x1F", chars "invalid float literal"⟩ :=
  ⟨rfl, rfl, rfl⟩

/-- Claim C4, amended: the number branch of the literal parser succeeds on a
text exactly when it matches Rust's `f64::from_str` grammar (`FloatSpec`):
an optional sign followed by a case-insensitive `inf`, `infinity` or `nan`,
or by a decimal mantissa with an optional `e`/`E` exponent; hexadecimal is
rejected, while exponent forms and infinities are accepted. -/
theorem c4_number_branch :
    ∀ s, (∃ x, parse_number s = .ok x) ↔ FloatSpec s := by
  intro s
  unfold parse_number
  by_cases h : rustF64Accepts s
  · rw [if_pos h]
    constructor
    · intro _
      exact (rustF64Accepts_iff s).mp h
    · intro _
      exact ⟨Literal.Number s, rfl⟩
  · rw [if_neg h]
    constructor
    · rintro ⟨x, hx⟩
      exact Except.noConfusion hx
    · intro hf
      exact absurd ((rustF64Accepts_iff s).mpr hf) h

end Rox
